import Mathlib

/-!
Verification development for the chronicle diff/highlight core.

The definitions below are shallow embeddings of the TypeScript functions in
`src/unnamed/part_000` (App.tsx: `parseDiffLineNumbers`, `computeChangedLines`),
`src/frontend/src/components/MarkdownSourceEditor.tsx` (`computeEditScript`,
`buildUnsavedDiff`, `highlightMarkdown`) and
`src/frontend/src/utils/markdownHighlight.ts` (`escapeHtml`, `wrap`,
`highlightInline`, `highlightMarkdownLine`, `highlightMarkdownBlock`).
Document content is a `List Char`; JavaScript string arrays become
`List (List Char)`; JavaScript `Set` becomes `Finset`.
-/

namespace Chronicle

/-- JS `s.split("\n")`: splitting on newline, keeping empty segments. -/
def splitNl : List Char → List (List Char)
  | [] => [[]]
  | c :: cs =>
    match splitNl cs with
    | [] => [[]]
    | l :: ls => if c = '\n' then [] :: l :: ls else (c :: l) :: ls

/-- JS `lines.join("\n")`. -/
def joinNl : List (List Char) → List Char
  | [] => []
  | [l] => l
  | l :: ls => l ++ '\n' :: joinNl ls

/-- `p` is a starting segment of `l` (JS `l.startsWith(p)` at index 0). -/
def startsL : List Char → List Char → Bool
  | [], _ => true
  | _ :: _, [] => false
  | p :: ps, c :: cs => p == c && startsL ps cs

/-- `p` is a trailing segment of `l` (JS `l.endsWith(p)`). -/
def endsL (p l : List Char) : Bool := startsL p.reverse l.reverse

/-- `p` occurs contiguously somewhere in `l` (JS `l.includes(p)`). -/
def hasSub (p : List Char) : List Char → Bool
  | [] => p.isEmpty
  | c :: cs => startsL p (c :: cs) || hasSub p cs

/-- JS `parseInt` on a nonempty digit string. -/
def natOfDigits (ds : List Char) : Nat := ds.foldl (fun acc c => acc * 10 + (c.toNat - 48)) 0

/-! ## Unified-Diff Parser (`parseDiffLineNumbers`, src/unnamed/part_000 lines 62-96) -/

/-- The hunk-header regex `^@@ -\d+(?:,\d+)? \+(\d+)(?:,\d+)? @@` of
`parseDiffLineNumbers`; returns the captured `newStart` on a match. -/
def matchHunkHeader (l : List Char) : Option Nat :=
  if startsL "@@ -".toList l then
    let r1 := l.drop 4
    let d1 := r1.takeWhile Char.isDigit
    if d1.isEmpty then none else
    let r2 := r1.drop d1.length
    let r3 : Option (List Char) :=
      if r2.head? = some ',' then
        let d2 := (r2.drop 1).takeWhile Char.isDigit
        if d2.isEmpty then none else some (r2.drop (1 + d2.length))
      else some r2
    match r3 with
    | none => none
    | some r3v =>
      if startsL " +".toList r3v then
        let r4 := r3v.drop 2
        let d3 := r4.takeWhile Char.isDigit
        if d3.isEmpty then none else
        let r5 := r4.drop d3.length
        let r6 : Option (List Char) :=
          if r5.head? = some ',' then
            let d4 := (r5.drop 1).takeWhile Char.isDigit
            if d4.isEmpty then none else some (r5.drop (1 + d4.length))
          else some r5
        match r6 with
        | none => none
        | some r6v => if startsL " @@".toList r6v then some (natOfDigits d3) else none
      else none
  else none

/-- Loop state of `parseDiffLineNumbers`. -/
structure PDState where
  changed : Finset Int
  deletedAfter : Finset Int
  currentLine : Int
  pendingDelete : Bool
deriving DecidableEq

/-- One iteration of the `for (const line of lines)` loop of
`parseDiffLineNumbers` (src/unnamed/part_000 lines 68-90). -/
def pdStep (s : PDState) (line : List Char) : PDState :=
  match matchHunkHeader line with
  | some ns => { s with currentLine := (ns : Int), pendingDelete := false }
  | none =>
    if s.currentLine = 0 then s
    else if line.head? = some '+' then
      { s with changed := insert s.currentLine s.changed,
               pendingDelete := false,
               currentLine := s.currentLine + 1 }
    else if line.head? = some '-' then
      { s with pendingDelete := true }
    else
      let s1 := if s.pendingDelete then
          { s with deletedAfter := insert (s.currentLine - 1) s.deletedAfter,
                   pendingDelete := false }
        else s
      { s1 with currentLine := s1.currentLine + 1 }

/-- `parseDiffLineNumbers` (src/unnamed/part_000 lines 62-96): parse unified
diff text into (changed lines, deleted-after gaps) of the new file. -/
def parseDiffLineNumbers (diffText : List Char) : Finset Int × Finset Int :=
  let s := (splitNl diffText).foldl pdStep ⟨∅, ∅, 0, false⟩
  (s.changed, if s.pendingDelete then insert (s.currentLine - 1) s.deletedAfter else s.deletedAfter)

/-! ## LCS Core (`computeChangedLines`, src/unnamed/part_000 lines 103-199) -/

/-- Row recurrence of the LCS length table: given row `i` as `prev` and the
line `a[i]`, compute row `i+1` up to column `j`.  The source stores the
table in a `Uint16Array`, so stored values are reduced mod 2^16 on write. -/
def dpR (aline : Option (List Char)) (b : List (List Char)) (prev : Nat → Nat) : Nat → Nat
  | 0 => 0
  | j + 1 =>
    if aline = b.get? j then (prev j + 1) % 65536
    else max (prev (j + 1)) (dpR aline b prev j)

/-- The LCS length table `dp[i][j]` shared by `computeChangedLines`
(src/unnamed/part_000 lines 138-150) and `computeEditScript`
(MarkdownSourceEditor.tsx lines 249-259):
`dp (i+1) (j+1) = if a[i] == b[j] then dp i j + 1 (mod 2^16)
else max (dp i (j+1)) (dp (i+1) j)`, zero on the borders. -/
def dp (a b : List (List Char)) : Nat → Nat → Nat
  | 0 => fun _ => 0
  | i + 1 => dpR (a.get? i) b (dp a b i)

/-- Fuel-indexed exact-mode backtrack of `computeChangedLines`
(src/unnamed/part_000 lines 151-164); every iteration of the source's
`while (i > 0 && j > 0)` loop decreases `i + j`, so fuel `i + j` is exact. -/
def btCLF (a b : List (List Char)) : Nat → Nat → Nat → Finset ℕ × Finset ℕ
  | 0, _, _ => (∅, ∅)
  | fuel + 1, i, j =>
    if 0 < i ∧ 0 < j then
      if a.get? (i - 1) = b.get? (j - 1) then
        let p := btCLF a b fuel (i - 1) (j - 1)
        (insert (i - 1) p.1, insert (j - 1) p.2)
      else if dp a b (i - 1) j > dp a b i (j - 1) then btCLF a b fuel (i - 1) j
      else btCLF a b fuel i (j - 1)
    else (∅, ∅)

/-- Exact-mode backtrack of `computeChangedLines`: the LCS index sets
`(lcsA, lcsB)` obtained walking back from `(i, j)`. -/
def btCL (a b : List (List Char)) (i j : Nat) : Finset ℕ × Finset ℕ :=
  btCLF a b (i + j) i j

/-- Positions of line `s` in `a` (the `aMap` of the greedy fallback mode,
src/unnamed/part_000 lines 114-120). -/
def posOf (a : List (List Char)) (s : List Char) : List Nat :=
  (List.range a.length).filter (fun i => a.get? i = some s)

/-- One step of the greedy fallback scan over `b` (src/unnamed/part_000
lines 124-135). -/
def greedyStep (a b : List (List Char)) (st : Finset ℕ × Finset ℕ × Int) (j : Nat) :
    Finset ℕ × Finset ℕ × Int :=
  match (posOf a (b.getD j [])).find? (fun (p : Nat) => st.2.2 < (p : Int)) with
  | some p => (insert p st.1, insert j st.2.1, (p : Int))
  | none => st

/-- Greedy fallback LCS (src/unnamed/part_000 lines 113-135), used when
`n * m > 4,000,000`. -/
def greedyLcs (a b : List (List Char)) : Finset ℕ × Finset ℕ :=
  let st := (List.range b.length).foldl (greedyStep a b) (∅, ∅, -1)
  (st.1, st.2.1)

/-- Fuel-indexed version of the scan
`while (bPos < m && !lcsB.has(bPos)) bPos++` (src/unnamed/part_000
line 181); each iteration decreases `m - bPos`, so that fuel is enough. -/
def advB (lcsB : Finset ℕ) (m : Nat) : Nat → Nat → Nat
  | 0, bPos => bPos
  | fuel + 1, bPos => if bPos < m ∧ bPos ∉ lcsB then advB lcsB m fuel (bPos + 1) else bPos

/-- Advance `bPos` to the next LCS-matched position of `b`
(src/unnamed/part_000 line 181). -/
def advanceB (lcsB : Finset ℕ) (m : Nat) (bPos : Nat) : Nat :=
  advB lcsB m (m - bPos) bPos

/-- Deletion-marker walk of `computeChangedLines`
(src/unnamed/part_000 lines 175-196). -/
def delWalk (lcsA lcsB : Finset ℕ) (n m : Nat) : Finset ℕ :=
  let st := (List.range n).foldl
    (fun st ai =>
      if ai ∈ lcsA then
        let bp := advanceB lcsB m st.1
        let acc := if st.2.1 then insert bp st.2.2 else st.2.2
        (bp + 1, false, acc)
      else (st.1, true, st.2.2))
    ((0 : Nat), false, (∅ : Finset ℕ))
  if st.2.1 then insert m st.2.2 else st.2.2

/-- `computeChangedLines` (src/unnamed/part_000 lines 103-199): 1-indexed
changed lines of `current` plus deletion gap positions. -/
def computeChangedLines (saved current : List Char) : Finset ℕ × Finset ℕ :=
  if saved = current then (∅, ∅) else
  let a := splitNl saved
  let b := splitNl current
  let n := a.length
  let m := b.length
  let lcs := if n * m > 4000000 then greedyLcs a b else btCL a b n m
  let changed := ((Finset.range m).filter (fun j => j ∉ lcs.2)).image (· + 1)
  (changed, delWalk lcs.1 lcs.2 n m)

/-! ## Edit Script Builder (`computeEditScript`,
MarkdownSourceEditor.tsx lines 239-278) -/

/-- Edit operation tagged union of MarkdownSourceEditor.tsx lines 239-242. -/
inductive EditOp where
  | equal (aIdx bIdx : Nat)
  | insert (bIdx : Nat)
  | delete (aIdx : Nat)
deriving DecidableEq

/-- `op.type !== "equal"`. -/
def isChange : EditOp → Bool
  | .equal _ _ => false
  | _ => true

/-- Fuel-indexed backtrack loop of `computeEditScript` (lines 262-275),
producing the operation list in push order (reverse document order); every
iteration of the source's `while (i > 0 || j > 0)` loop decreases `i + j`,
so fuel `i + j` is exact. -/
def btRevF (a b : List (List Char)) : Nat → Nat → Nat → List EditOp
  | 0, _, _ => []
  | fuel + 1, i, j =>
    if 0 < i ∨ 0 < j then
      if 0 < i ∧ 0 < j ∧ a.get? (i - 1) = b.get? (j - 1) then
        .equal (i - 1) (j - 1) :: btRevF a b fuel (i - 1) (j - 1)
      else if 0 < j ∧ (i = 0 ∨ dp a b i (j - 1) ≥ dp a b (i - 1) j) then
        .insert (j - 1) :: btRevF a b fuel i (j - 1)
      else
        .delete (i - 1) :: btRevF a b fuel (i - 1) j
    else []

/-- `computeEditScript` (MarkdownSourceEditor.tsx lines 244-278). -/
def computeEditScript (a b : List (List Char)) : List EditOp :=
  (btRevF a b (a.length + b.length) a.length b.length).reverse

/-! ## Hunk Grouper (`buildUnsavedDiff`, MarkdownSourceEditor.tsx lines 285-386) -/

/-- A grouped hunk: its operations and the inclusive `[bStart, bEnd]` range
it covers in `b` (MarkdownSourceEditor.tsx line 296). -/
structure Hunk where
  ops : List EditOp
  bStart : Int
  bEnd : Int
deriving DecidableEq, Inhabited

/-- Grouping-loop state of `buildUnsavedDiff` (lines 297-301). -/
structure GState where
  hunks : List Hunk
  cur : List EditOp
  bStart : Int
  bEnd : Int
  ctxAfter : Nat
deriving DecidableEq

/-- Leading-context inclusion when opening a hunk (lines 322-330): push the
equal ops among the up-to-3 preceding ops. -/
def addCtx (s : GState) (ctx : List EditOp) : GState :=
  ctx.foldl
    (fun s cop =>
      match cop with
      | .equal _ bi =>
        { s with cur := s.cur ++ [cop],
                 bStart := if s.bStart < 0 then (bi : Int) else s.bStart,
                 bEnd := (bi : Int) }
      | _ => s)
    s

/-- Look-ahead anchor for a leading pure-delete (lines 338-350): the `bIdx`
of the next equal/insert op, or `b.length` if none exists. -/
def lookaheadB (bLen : Nat) : List EditOp → Int
  | [] => (bLen : Int)
  | .equal _ bi :: _ => (bi : Int)
  | .insert bi :: _ => (bi : Int)
  | .delete _ :: rest => lookaheadB bLen rest

/-- One iteration of the grouping loop of `buildUnsavedDiff`
(lines 303-353); `prev` holds already-processed ops in reverse and `rest`
the ops after `op`. -/
def groupStep (bLen : Nat) (prev rest : List EditOp) (s : GState) (op : EditOp) : GState :=
  match op with
  | .equal _ bi =>
    if s.cur.isEmpty then s
    else
      let s1 := { s with ctxAfter := s.ctxAfter + 1, cur := s.cur ++ [op], bEnd := (bi : Int) }
      if s1.ctxAfter ≥ 3 then
        { hunks := s1.hunks ++ [⟨s1.cur, s1.bStart, s1.bEnd⟩],
          cur := [], bStart := -1, bEnd := -1, ctxAfter := 0 }
      else s1
  | .insert bi =>
    let s1 := if s.cur.isEmpty then addCtx s ((prev.take 3).reverse) else s
    let s2 := { s1 with ctxAfter := 0, cur := s1.cur ++ [op] }
    { s2 with bStart := if s2.bStart < 0 then (bi : Int) else s2.bStart, bEnd := (bi : Int) }
  | .delete _ =>
    let s1 := if s.cur.isEmpty then addCtx s ((prev.take 3).reverse) else s
    let s2 := { s1 with ctxAfter := 0, cur := s1.cur ++ [op] }
    if s2.bStart < 0 then
      let anchor := lookaheadB bLen rest
      { s2 with bStart := anchor, bEnd := anchor }
    else s2

/-- The grouping loop itself, plus the final flush of an open hunk that
contains at least one non-equal op (lines 354-356). -/
def groupGo (bLen : Nat) : List EditOp → List EditOp → GState → List Hunk
  | [], _, s =>
    if !s.cur.isEmpty && s.cur.any isChange then
      s.hunks ++ [⟨s.cur, s.bStart, s.bEnd⟩]
    else s.hunks
  | op :: rest, prev, s => groupGo bLen rest (op :: prev) (groupStep bLen prev rest s op)

/-- Edit script plus hunk grouping of `buildUnsavedDiff` over two line
sequences. -/
def buildHunks (a b : List (List Char)) : List Hunk :=
  groupGo b.length (computeEditScript a b) [] ⟨[], [], -1, -1, 0⟩

/-- Hunk-coverage test of `buildUnsavedDiff` (lines 361-374): one line of
slack on each side for deletion queries. -/
def hunkCovers (isDeletion : Bool) (t : Int) (h : Hunk) : Bool :=
  if isDeletion then h.bStart - 1 ≤ t && t ≤ h.bEnd + 1
  else h.bStart ≤ t && t ≤ h.bEnd

/-- Diff-line rendering of the matched hunk (lines 378-383). -/
def renderOp (a b : List (List Char)) : EditOp → List Char
  | .equal _ bi => ' ' :: b.getD bi []
  | .delete ai => '-' :: a.getD ai []
  | .insert bi => '+' :: b.getD bi []

/-- `buildUnsavedDiff` (MarkdownSourceEditor.tsx lines 285-386): the diff
hunk text covering 1-indexed `bodyLine`, or `none`. -/
def buildUnsavedDiff (savedContent currentContent : List Char) (bodyLine : Nat)
    (isDeletion : Bool) : Option (List Char) :=
  let a := splitNl savedContent
  let b := splitNl currentContent
  let hunks := buildHunks a b
  let t : Int := (bodyLine : Int) - 1
  match hunks.find? (hunkCovers isDeletion t) with
  | none => none
  | some h =>
    let lines := h.ops.map (renderOp a b)
    if lines.isEmpty then none else some (joinNl lines)

/-! ## Markdown highlighter (src/frontend/src/utils/markdownHighlight.ts) -/

/-- One global-replace pass `text.replace(/c/g, rep)`. -/
def replaceChar (c : Char) (rep : List Char) : List Char → List Char
  | [] => []
  | x :: xs => (if x = c then rep else [x]) ++ replaceChar c rep xs

/-- `escapeHtml` (markdownHighlight.ts lines 4-9): three sequential global
replaces for `&`, `<`, `>`. -/
def escapeHtml (text : List Char) : List Char :=
  replaceChar '>' "&gt;".toList
    (replaceChar '<' "&lt;".toList
      (replaceChar '&' "&amp;".toList text))

/-- `wrap` (markdownHighlight.ts lines 11-13). -/
def wrap (cls text : List Char) : List Char :=
  "<span class=\"".toList ++ cls ++ "\">".toList ++ escapeHtml text ++ "</span>".toList

/-- The backquote character U+0060. -/
def tickChar : Char := Char.ofNat 96

/-- JS `\s` whitespace test for the characters relevant here. -/
def isWs (c : Char) : Bool :=
  c = ' ' || c = '\t' || c = '\n' || c = '\r' || c = Char.ofNat 11 || c = Char.ofNat 12

/-- JS `String.prototype.trim`. -/
def jsTrim (l : List Char) : List Char :=
  ((l.dropWhile isWs).reverse.dropWhile isWs).reverse

/-- A matcher attempt at one position: given the previous character (for
lookbehind) and the remaining text, the length of the match starting here. -/
abbrev TryFn := Option Char → List Char → Option Nat

/-- Inline-code rule: the regex of INLINE_RULES entry 1, a backquote, one or
more non-backquote characters, a backquote. -/
def tryCode : TryFn := fun _ l =>
  match l with
  | c :: rest =>
    if c = tickChar then
      let mid := rest.takeWhile (fun x => x ≠ tickChar)
      if 0 < mid.length ∧ mid.length < rest.length then some (mid.length + 2) else none
    else none
  | [] => none

/-- Shared body of the image/link rules: `\[[^\]]*\]\([^)]*\)`. -/
def tryLinkCore (l : List Char) : Option Nat :=
  match l with
  | c :: rest =>
    if c = '[' then
      let alt := rest.takeWhile (fun x => x ≠ ']')
      if alt.length < rest.length then
        match rest.drop (alt.length + 1) with
        | c2 :: rest2 =>
          if c2 = '(' then
            let url := rest2.takeWhile (fun x => x ≠ ')')
            if url.length < rest2.length then some (alt.length + url.length + 4) else none
          else none
        | [] => none
      else none
    else none
  | [] => none

/-- Image rule `!\[[^\]]*\]\([^)]*\)` of INLINE_RULES. -/
def tryImage : TryFn := fun _ l =>
  match l with
  | c :: rest => if c = '!' then (tryLinkCore rest).map (· + 1) else none
  | [] => none

/-- Link rule `\[[^\]]*\]\([^)]*\)` of INLINE_RULES. -/
def tryLink : TryFn := fun _ l => tryLinkCore l

/-- Lazy search for a closing double delimiter: smallest `k ≥ 1` such that
`[c, c]` starts at offset `k`, the `k` consumed characters all matching `.`
(not a newline). -/
def seekPair (c : Char) : List Char → Option Nat
  | [] => none
  | x :: rest =>
    if x = '\n' then none
    else if rest.take 2 = [c, c] then some 1
    else (seekPair c rest).map (· + 1)

/-- Strikethrough rule `~~.+?~~` of INLINE_RULES. -/
def tryStrike : TryFn := fun _ l =>
  if l.take 2 = ['~', '~'] then (seekPair '~' (l.drop 2)).map (· + 4) else none

/-- Bold rule `(\*\*|__)(.+?)\1` of INLINE_RULES. -/
def tryBold : TryFn := fun _ l =>
  if l.take 2 = ['*', '*'] then (seekPair '*' (l.drop 2)).map (· + 4)
  else if l.take 2 = ['_', '_'] then (seekPair '_' (l.drop 2)).map (· + 4)
  else none

/-- Lazy search for the italic closing delimiter: smallest `k ≥ 1` with
`l.get? k = c`, the preceding consumed character not `c` (lookbehind) and the
following character not `c` (lookahead), the consumed characters matching
`.`. -/
def seekIC (c : Char) : List Char → Option Nat
  | [] => none
  | x :: rest =>
    if x = '\n' then none
    else if x ≠ c ∧ rest.head? = some c ∧ rest.get? 1 ≠ some c then some 1
    else (seekIC c rest).map (· + 1)

/-- Italic rule `(?<!\*)(\*|_)(?!\1)(.+?)(?<!\1)\1(?!\1)` of INLINE_RULES. -/
def tryItalic : TryFn := fun prev l =>
  match l with
  | c :: rest =>
    if (c = '*' ∨ c = '_') ∧ prev ≠ some '*' ∧ rest.head? ≠ some c then
      (seekIC c rest).map (· + 2)
    else none
  | [] => none

/-- `remaining.match(re)` for one rule: the leftmost position at which the
matcher succeeds, with the match length there. -/
def firstFrom (f : TryFn) (prev : Option Char) (t : List Char) : Option (Nat × Nat) :=
  match f prev t with
  | some len => some (0, len)
  | none =>
    match t with
    | [] => none
    | c :: rest => (firstFrom f (some c) rest).map (fun p => (p.1 + 1, p.2))

/-- The priority-ordered inline token rules (markdownHighlight.ts
lines 16-23), each with its css class. -/
def INLINE_RULES : List (TryFn × List Char) :=
  [(tryCode, "md-code-inline".toList),
   (tryImage, "md-image".toList),
   (tryLink, "md-link".toList),
   (tryStrike, "md-strikethrough".toList),
   (tryBold, "md-bold".toList),
   (tryItalic, "md-italic".toList)]

/-- One rule-comparison step of the best-match loop of `highlightInline`
(lines 30-37). -/
def bestStep (t : List Char) (best : Option (Nat × Nat × List Char))
    (rule : TryFn × List Char) : Option (Nat × Nat × List Char) :=
  match firstFrom rule.1 none t with
  | none => best
  | some (i, len) =>
    match best with
    | none => some (i, len, rule.2)
    | some (bi, _, _) => if i < bi then some (i, len, rule.2) else best

/-- The best-match selection of `highlightInline` (lines 30-37): the
earliest-starting match, earlier rules winning ties. -/
def findBest (t : List Char) : Option (Nat × Nat × List Char) :=
  INLINE_RULES.foldl (bestStep t) none

/-- Fuel-indexed loop of `highlightInline` (lines 29-49); every iteration
consumes at least one character (`findBest_pos`), so fuel `text.length` is
enough. -/
def hlF : Nat → List Char → List Char
  | 0, _ => []
  | fuel + 1, text =>
    if text.isEmpty then [] else
    match findBest text with
    | none => escapeHtml text
    | some (i, len, cls) =>
      escapeHtml (text.take i) ++ wrap cls ((text.drop i).take len) ++
        hlF fuel (text.drop (i + len))

/-- `highlightInline` (markdownHighlight.ts lines 25-52). -/
def highlightInline (text : List Char) : List Char :=
  hlF text.length text

/-- Fuel-indexed segment trace of `highlightInline`'s loop: the consumed
stretches in order, untouched text tagged `none` and matched tokens tagged
with their css class. -/
def hlSegsF : Nat → List Char → List (List Char × Option (List Char))
  | 0, _ => []
  | fuel + 1, text =>
    if text.isEmpty then [] else
    match findBest text with
    | none => [(text, none)]
    | some (i, len, cls) =>
      (text.take i, none) :: ((text.drop i).take len, some cls) ::
        hlSegsF fuel (text.drop (i + len))

/-- The consumed segments of `highlightInline`'s loop, in order. -/
def hlSegs (text : List Char) : List (List Char × Option (List Char)) :=
  hlSegsF text.length text

/-- The thematic-break test `/^(\*{3,}|-{3,}|_{3,})\s*$/` of
`highlightMarkdownLine` (markdownHighlight.ts line 62). -/
def hrTest (line : List Char) : Bool :=
  match line.head? with
  | some c =>
    if c = '*' ∨ c = '-' ∨ c = '_' then
      decide (3 ≤ (line.takeWhile (fun x => x = c)).length) &&
        (line.drop (line.takeWhile (fun x => x = c)).length).all isWs
    else false
  | none => false

/-- The list-item match `/^(\s*(?:[-*+]|\d+\.)\s)(.*)/` of
`highlightMarkdownLine` (line 64), returning the two capture groups. -/
def listMatch (line : List Char) : Option (List Char × List Char) :=
  let ws := line.takeWhile isWs
  let r := line.drop ws.length
  let mk : Option Nat :=
    match r.head? with
    | some c =>
      if c = '-' ∨ c = '*' ∨ c = '+' then some 1
      else
        let ds := r.takeWhile Char.isDigit
        if 0 < ds.length ∧ r.get? ds.length = some '.' then some (ds.length + 1) else none
    | none => none
  match mk with
  | none => none
  | some mkLen =>
    if (r.drop mkLen).head?.any isWs then
      let g1len := ws.length + mkLen + 1
      some (line.take g1len, (line.drop g1len).takeWhile (fun c => c ≠ '\n'))
    else none

/-- `highlightMarkdownLine` (markdownHighlight.ts lines 54-69). -/
def highlightMarkdownLine (line : List Char) : List Char :=
  let hs := line.takeWhile (fun c => c = '#')
  if 1 ≤ hs.length ∧ hs.length ≤ 6 ∧ (line.drop hs.length).head?.any isWs then
    wrap "md-heading-marker".toList (line.take (hs.length + 1)) ++
      ("<span class=\"md-heading\">".toList ++
        highlightInline ((line.drop (hs.length + 1)).takeWhile (fun c => c ≠ '\n')) ++
        "</span>".toList)
  else if hrTest line then wrap "md-hr".toList line
  else if line.head? = some '>' then wrap "md-blockquote".toList line
  else
    match listMatch line with
    | some g => wrap "md-list-marker".toList g.1 ++ highlightInline g.2
    | none => highlightInline line

/-- `highlightMarkdownBlock` (markdownHighlight.ts lines 72-77). -/
def highlightMarkdownBlock (code : List Char) : List Char :=
  joinNl ((splitNl code).map highlightMarkdownLine)

/-! ## `highlightMarkdown` (MarkdownSourceEditor.tsx lines 426-487)

The delegated code highlighter (`highlightCode`, which calls the external
highlight.js library when the language tag is registered) is an external
collaborator; it is taken as a parameter `hc : lang → code → markup`. -/

/-- Line-scanner state of `highlightMarkdown` (lines 429-433). -/
structure HMState where
  inFM : Bool
  fmDone : Bool
  inCode : Bool
  codeLang : List Char
  codeLines : List (List Char)
deriving DecidableEq

/-- The code-fence opening test `/^```/.test(line)` (line 454). -/
def fenceOpenTest (line : List Char) : Bool :=
  startsL [tickChar, tickChar, tickChar] line

/-- The code-fence closing test `/^```\s*$/.test(line)` (line 463). -/
def fenceCloseTest (line : List Char) : Bool :=
  startsL [tickChar, tickChar, tickChar] line && (line.drop 3).all isWs

/-- `flushCodeBlock` (MarkdownSourceEditor.tsx lines 413-424): markdown
blocks are re-highlighted line by line, others delegated to `hc`. -/
def flushCodeBlock (hc : List Char → List Char → List Char)
    (codeLines : List (List Char)) (codeLang : List Char) : List Char :=
  if codeLang.map Char.toLower = "md".toList ∨ codeLang.map Char.toLower = "markdown".toList then
    highlightMarkdownBlock (joinNl codeLines)
  else hc codeLang (joinNl codeLines)

/-- One iteration of the line loop of `highlightMarkdown`
(lines 435-479); returns the next state and the html lines emitted. -/
def hmStep (hc : List Char → List Char → List Char) (isFirst : Bool)
    (s : HMState) (line : List Char) : HMState × List (List Char) :=
  if isFirst && jsTrim line == "---".toList then
    ({ s with inFM := true }, [wrap "md-frontmatter".toList line])
  else if s.inFM && !s.fmDone then
    let s' := if jsTrim line == "---".toList then { s with inFM := false, fmDone := true } else s
    (s', [wrap "md-frontmatter".toList line])
  else if !s.inCode && fenceOpenTest line then
    ({ s with inCode := true, codeLang := jsTrim (line.drop 3), codeLines := [] },
     [wrap "md-code-fence".toList line])
  else if s.inCode && fenceCloseTest line then
    ({ s with inCode := false, codeLang := [], codeLines := [] },
     [flushCodeBlock hc s.codeLines s.codeLang, wrap "md-code-fence".toList line])
  else if s.inCode then
    ({ s with codeLines := s.codeLines ++ [line] }, [])
  else (s, [highlightMarkdownLine line])

/-- The line loop of `highlightMarkdown`, threading the state. -/
def hmGo (hc : List Char → List Char → List Char) (isFirst : Bool) (s : HMState) :
    List (List Char) → List (List Char) × HMState
  | [] => ([], s)
  | l :: ls =>
    let r := hmStep hc isFirst s l
    let rr := hmGo hc false r.1 ls
    (r.2 ++ rr.1, rr.2)

/-- `highlightMarkdown` (MarkdownSourceEditor.tsx lines 426-487), including
the final flush of an unclosed code block (lines 482-484). -/
def highlightMarkdown (hc : List Char → List Char → List Char)
    (source : List Char) : List Char :=
  let r := hmGo hc true ⟨false, false, false, [], []⟩ (splitNl source)
  let outs :=
    if r.2.inCode && !r.2.codeLines.isEmpty then
      r.1 ++ [flushCodeBlock hc r.2.codeLines r.2.codeLang]
    else r.1
  joinNl outs

/-! ## Auxiliary definitions used by the claims -/

/-- Projection of an edit script onto `a`: the `aIdx` fields of its equal
and delete operations, in order. -/
def aProj (ops : List EditOp) : List Nat :=
  ops.filterMap fun op =>
    match op with
    | .equal ai _ => some ai
    | .delete ai => some ai
    | .insert _ => none

/-- Projection of an edit script onto `b`: the `bIdx` fields of its equal
and insert operations, in order. -/
def bProj (ops : List EditOp) : List Nat :=
  ops.filterMap fun op =>
    match op with
    | .equal _ bi => some bi
    | .insert bi => some bi
    | .delete _ => none

/-- Modelled from the spec (claim C5): an exact-mode backtrack that, when
the diagonal step does not apply and the two adjacent table cells are tied,
prefers to decrement `i` (walk `a`), as §4.1 of the spec describes.  Used
only for comparison with the source's `btCLF`. -/
def btCLPreferAF (a b : List (List Char)) : Nat → Nat → Nat → Finset ℕ × Finset ℕ
  | 0, _, _ => (∅, ∅)
  | fuel + 1, i, j =>
    if 0 < i ∧ 0 < j then
      if a.get? (i - 1) = b.get? (j - 1) then
        let p := btCLPreferAF a b fuel (i - 1) (j - 1)
        (insert (i - 1) p.1, insert (j - 1) p.2)
      else if dp a b (i - 1) j ≥ dp a b i (j - 1) then btCLPreferAF a b fuel (i - 1) j
      else btCLPreferAF a b fuel i (j - 1)
    else (∅, ∅)

/-- Modelled from the spec (claim C5): `computeChangedLines` with the
tie-preferring-`i` backtrack in exact mode, for comparison with the source
behaviour. -/
def computeChangedLinesPreferA (saved current : List Char) : Finset ℕ × Finset ℕ :=
  if saved = current then (∅, ∅) else
  let a := splitNl saved
  let b := splitNl current
  let n := a.length
  let m := b.length
  let lcs := if n * m > 4000000 then greedyLcs a b else btCLPreferAF a b (n + m) n m
  let changed := ((Finset.range m).filter (fun j => j ∉ lcs.2)).image (· + 1)
  (changed, delWalk lcs.1 lcs.2 n m)

/-- The three-character pattern an unescaped `<script>` must start with. -/
def scPat : List Char := ['<', 's', 'c']

/-- The literal pattern `<script>`. -/
def scriptPat : List Char := "<script>".toList

/-- Markup that cannot contain `<sc` and ends in neither `<` nor `<s`:
closed under concatenation and satisfied by every piece the highlighter
emits. -/
def Safe (l : List Char) : Prop :=
  hasSub scPat l = false ∧ endsL ['<'] l = false ∧ endsL ['<', 's'] l = false

/-- Modelled from the spec (claim C9): a line "consisting of three or more
backticks alone", with only trailing whitespace. -/
def ticksAlone (l : List Char) : Bool :=
  decide (3 ≤ (l.takeWhile (fun c => c = tickChar)).length) &&
    (l.dropWhile (fun c => c = tickChar)).all isWs

/-- A concrete stand-in for the external delegated code highlighter, used
only to instantiate `highlightMarkdown`'s parameter in closed statements
(matching `highlightCode`'s escaped-plain-text fallback). -/
def hcFallback : List Char → List Char → List Char := fun _ code => escapeHtml code

/-- Rendering of one consumed segment of `highlightInline`'s loop. -/
def renderSeg (s : List Char × Option (List Char)) : List Char :=
  match s.2 with
  | none => escapeHtml s.1
  | some cls => wrap cls s.1

/-! ## Lemmas: inline matchers produce non-empty matches -/


theorem seekPair_pos {c : Char} {l : List Char} {n : Nat} (h : seekPair c l = some n) :
    0 < n := by
  induction l generalizing n with
  | nil => simp [seekPair] at h
  | cons x rest ih =>
    simp only [seekPair] at h
    split at h
    · simp at h
    · split at h
      · simp only [Option.some.injEq] at h
        omega
      · rcases Option.map_eq_some'.mp h with ⟨m, _, rfl⟩
        omega

theorem seekIC_pos {c : Char} {l : List Char} {n : Nat} (h : seekIC c l = some n) :
    0 < n := by
  induction l generalizing n with
  | nil => simp [seekIC] at h
  | cons x rest ih =>
    simp only [seekIC] at h
    split at h
    · simp at h
    · split at h
      · simp only [Option.some.injEq] at h
        omega
      · rcases Option.map_eq_some'.mp h with ⟨m, _, rfl⟩
        omega

theorem tryCode_pos {prev : Option Char} {l : List Char} {n : Nat}
    (h : tryCode prev l = some n) : 0 < n := by
  match l with
  | [] => simp [tryCode] at h
  | c :: rest =>
    simp only [tryCode] at h
    split at h
    · split at h
      · simp only [Option.some.injEq] at h
        omega
      · simp at h
    · simp at h

theorem tryLinkCore_pos {l : List Char} {n : Nat} (h : tryLinkCore l = some n) : 0 < n := by
  match l with
  | [] => simp [tryLinkCore] at h
  | c :: rest =>
    simp only [tryLinkCore] at h
    split at h
    · split at h
      · split at h
        · split at h
          · split at h
            · simp only [Option.some.injEq] at h
              omega
            · simp at h
          · simp at h
        · simp at h
      · simp at h
    · simp at h

theorem tryImage_pos {prev : Option Char} {l : List Char} {n : Nat}
    (h : tryImage prev l = some n) : 0 < n := by
  match l with
  | [] => simp [tryImage] at h
  | c :: rest =>
    simp only [tryImage] at h
    split at h
    · rcases Option.map_eq_some'.mp h with ⟨m, _, rfl⟩
      omega
    · simp at h

theorem tryLink_pos {prev : Option Char} {l : List Char} {n : Nat}
    (h : tryLink prev l = some n) : 0 < n :=
  tryLinkCore_pos h

theorem tryStrike_pos {prev : Option Char} {l : List Char} {n : Nat}
    (h : tryStrike prev l = some n) : 0 < n := by
  simp only [tryStrike] at h
  split at h
  · rcases Option.map_eq_some'.mp h with ⟨m, _, rfl⟩
    omega
  · simp at h

theorem tryBold_pos {prev : Option Char} {l : List Char} {n : Nat}
    (h : tryBold prev l = some n) : 0 < n := by
  simp only [tryBold] at h
  split at h
  · rcases Option.map_eq_some'.mp h with ⟨m, _, rfl⟩
    omega
  · split at h
    · rcases Option.map_eq_some'.mp h with ⟨m, _, rfl⟩
      omega
    · simp at h

theorem tryItalic_pos {prev : Option Char} {l : List Char} {n : Nat}
    (h : tryItalic prev l = some n) : 0 < n := by
  match l with
  | [] => simp [tryItalic] at h
  | c :: rest =>
    simp only [tryItalic] at h
    split at h
    · rcases Option.map_eq_some'.mp h with ⟨m, _, rfl⟩
      omega
    · simp at h

theorem firstFrom_pos {f : TryFn} (hf : ∀ prev l n, f prev l = some n → 0 < n)
    {prev : Option Char} {t : List Char} {i len : Nat}
    (h : firstFrom f prev t = some (i, len)) : 0 < len := by
  induction t generalizing prev i len with
  | nil =>
    simp only [firstFrom] at h
    split at h
    · next heq =>
      simp only [Option.some.injEq, Prod.mk.injEq] at h
      exact h.2 ▸ hf _ _ _ heq
    · simp at h
  | cons c rest ih =>
    simp only [firstFrom] at h
    split at h
    · next heq =>
      simp only [Option.some.injEq, Prod.mk.injEq] at h
      exact h.2 ▸ hf _ _ _ heq
    · rcases Option.map_eq_some'.mp h with ⟨⟨i', len'⟩, hrec, hpair⟩
      simp only [Prod.mk.injEq] at hpair
      exact hpair.2 ▸ ih hrec

theorem foldBest_pos (t : List Char) (rs : List (TryFn × List Char))
    (hrs : ∀ r ∈ rs, ∀ prev l n, r.1 prev l = some n → 0 < n)
    (acc : Option (Nat × Nat × List Char))
    (hacc : ∀ i len cls, acc = some (i, len, cls) → 0 < len)
    {i len : Nat} {cls : List Char}
    (h : rs.foldl (bestStep t) acc = some (i, len, cls)) : 0 < len := by
  induction rs generalizing acc with
  | nil => exact hacc i len cls h
  | cons r rs ih =>
    refine ih (fun r' hr' => hrs r' (List.mem_cons_of_mem _ hr')) (bestStep t acc r) ?_ h
    intro i' len' cls' hstep
    simp only [bestStep] at hstep
    split at hstep
    · exact hacc _ _ _ hstep
    · next i0 len0 heq =>
      split at hstep
      · simp only [Option.some.injEq, Prod.mk.injEq] at hstep
        exact hstep.2.1 ▸ firstFrom_pos (hrs r (List.mem_cons_self _ _)) heq
      · split at hstep
        · simp only [Option.some.injEq, Prod.mk.injEq] at hstep
          exact hstep.2.1 ▸ firstFrom_pos (hrs r (List.mem_cons_self _ _)) heq
        · exact hacc _ _ _ hstep

theorem findBest_pos {t : List Char} {i len : Nat} {cls : List Char}
    (h : findBest t = some (i, len, cls)) : 0 < len := by
  refine foldBest_pos t INLINE_RULES ?_ none (by simp) h
  intro r hr prev l n hn
  simp only [INLINE_RULES, List.mem_cons, List.not_mem_nil, or_false] at hr
  rcases hr with rfl | rfl | rfl | rfl | rfl | rfl
  · exact tryCode_pos (show tryCode prev l = some n from hn)
  · exact tryImage_pos (show tryImage prev l = some n from hn)
  · exact tryLink_pos (show tryLink prev l = some n from hn)
  · exact tryStrike_pos (show tryStrike prev l = some n from hn)
  · exact tryBold_pos (show tryBold prev l = some n from hn)
  · exact tryItalic_pos (show tryItalic prev l = some n from hn)

/-! ## Claim C8 -/

/-- C8: for every content string `x`, `computeChangedLines x x` returns an
empty changed-line set and an empty deletion-marker set, by the
whole-document identity short circuit. -/
theorem c8_identity_short_circuit (x : List Char) : computeChangedLines x x = (∅, ∅) := by
  simp [computeChangedLines]

/-! ## Claim C1 -/

/-- C1 counterexample: for baseline `"a\nb\nc"` and current `"a\nx\nc"` the
code returns deletion-marker set `{2}`, not the empty set the claim (spec
Example 1) requires: the modified middle line is a delete of `b` plus an
insert of `x`, and the delete run is recorded as a gap marker after line 2. -/
theorem c1_counterexample :
    computeChangedLines "a\nb\nc".toList "a\nx\nc".toList ≠ ({2}, (∅ : Finset ℕ)) ∧
    computeChangedLines "a\nb\nc".toList "a\nx\nc".toList = ({2}, {2}) := by
  decide

/-- C1 amended: for baseline `"a\nb\nc"` and current `"a\nx\nc"`,
`computeChangedLines` returns changed-line set `{2}` and deletion-marker
set `{2}`. -/
theorem c1_amended :
    computeChangedLines "a\nb\nc".toList "a\nx\nc".toList = ({2}, {2}) := by
  decide

/-! ## Claim C4 -/

/-- C4 counterexample: when a new hunk header appears while the
pending-deletion flag is set, `parseDiffLineNumbers` clears the flag and
resets the counter WITHOUT recording a deletion marker at `counter - 1`
(the claim requires marker `1` here; the code records none): shown both at
the single-step level (state with `counter = 2`, flag set, fed the header)
and end to end, where the parse yields deletion-marker set `∅`. -/
theorem c4_counterexample :
    pdStep ⟨∅, ∅, 2, true⟩ "@@ -10,1 +10,2 @@".toList = ⟨∅, ∅, 10, false⟩ ∧
    parseDiffLineNumbers "@@ -1,2 +1,1 @@\n a\n-b\n@@ -10,1 +10,2 @@\n c\n+d".toList
      = ({11}, ∅) := by
  decide

/-- C4 amended: a deletion marker at `counter - 1` is recorded only when the
input ends with the pending-deletion flag still set; a new hunk header
resets the counter and clears the flag without recording anything. -/
theorem c4_amended :
    (∀ (s : PDState) (line : List Char) (ns : Nat), matchHunkHeader line = some ns →
      pdStep s line = { s with currentLine := (ns : Int), pendingDelete := false }) ∧
    (∀ t : List Char, parseDiffLineNumbers t =
      (((splitNl t).foldl pdStep ⟨∅, ∅, 0, false⟩).changed,
        if ((splitNl t).foldl pdStep ⟨∅, ∅, 0, false⟩).pendingDelete then
          insert (((splitNl t).foldl pdStep ⟨∅, ∅, 0, false⟩).currentLine - 1)
            ((splitNl t).foldl pdStep ⟨∅, ∅, 0, false⟩).deletedAfter
        else ((splitNl t).foldl pdStep ⟨∅, ∅, 0, false⟩).deletedAfter)) := by
  constructor
  · intro s line ns h
    simp [pdStep, h]
  · intro t
    rfl

/-- C4 witness: the header-step half of `c4_amended` applied to the concrete
pending-delete state and header line of the counterexample. -/
theorem c4_amended_witness :
    matchHunkHeader "@@ -10,1 +10,2 @@".toList = some 10 ∧
    pdStep ⟨∅, ∅, 2, true⟩ "@@ -10,1 +10,2 @@".toList = ⟨∅, ∅, 10, false⟩ :=
  ⟨by decide, c4_amended.1 ⟨∅, ∅, 2, true⟩ "@@ -10,1 +10,2 @@".toList 10 (by decide)⟩

/-! ## Claim C5 -/

/-- C5 counterexample: for baseline `"c\na"` and current `"a\nc"` the exact
backtrack hits the tie `dp[1][2] = dp[2][1] = 1` with no diagonal step; the
code walks `b` (classifying the b-side line as inserted) and returns
`({2}, {0})`, while the claimed prefer-`i` tie-break would return
`({1}, {2})`. -/
theorem c5_counterexample :
    computeChangedLines "c\na".toList "a\nc".toList = ({2}, {0}) ∧
    computeChangedLinesPreferA "c\na".toList "a\nc".toList = ({1}, {2}) ∧
    (({2}, {0}) : Finset ℕ × Finset ℕ) ≠ ({1}, {2}) := by
  decide

/-- C5 amended: in the exact-mode backtrack, whenever the diagonal step does
not apply and the two adjacent table cells are tied, the backtrack
decrements `j` (walks `b`), so the b-side line is the one left out of the
LCS (classified as inserted). -/
theorem c5_amended (a b : List (List Char)) (i j : Nat) (hi : 0 < i) (hj : 0 < j)
    (hne : a.get? (i - 1) ≠ b.get? (j - 1))
    (htie : dp a b (i - 1) j = dp a b i (j - 1)) :
    btCL a b i j = btCL a b i (j - 1) := by
  have hf : i + j = (i + (j - 1)) + 1 := by omega
  rw [btCL, hf]
  show btCLF a b ((i + (j - 1)) + 1) i j = btCLF a b (i + (j - 1)) i (j - 1)
  rw [btCLF]
  rw [if_pos ⟨hi, hj⟩, if_neg hne, if_neg (by omega : ¬ dp a b (i - 1) j > dp a b i (j - 1))]

/-- C5 witness: `c5_amended` applied at the tie reached on the
counterexample input (state `(2, 2)`). -/
theorem c5_amended_witness :
    ((splitNl "c\na".toList).get? 1 ≠ (splitNl "a\nc".toList).get? 1) ∧
    dp (splitNl "c\na".toList) (splitNl "a\nc".toList) 1 2
      = dp (splitNl "c\na".toList) (splitNl "a\nc".toList) 2 1 ∧
    btCL (splitNl "c\na".toList) (splitNl "a\nc".toList) 2 2
      = btCL (splitNl "c\na".toList) (splitNl "a\nc".toList) 2 1 :=
  ⟨by decide, by decide,
    c5_amended _ _ 2 2 (by decide) (by decide) (by decide) (by decide)⟩

/-! ## Claim C2 -/

theorem btRevF_proj (a b : List (List Char)) :
    ∀ (fuel i j : Nat), i + j ≤ fuel →
      aProj (btRevF a b fuel i j) = (List.range i).reverse ∧
      bProj (btRevF a b fuel i j) = (List.range j).reverse := by
  intro fuel
  induction fuel with
  | zero =>
    intro i j h
    obtain ⟨rfl, rfl⟩ : i = 0 ∧ j = 0 := by omega
    simp [btRevF, aProj, bProj]
  | succ fuel ih =>
    intro i j h
    by_cases h0 : 0 < i ∨ 0 < j
    case neg =>
      obtain ⟨rfl, rfl⟩ : i = 0 ∧ j = 0 := by omega
      simp [btRevF, aProj, bProj]
    · by_cases heq : 0 < i ∧ 0 < j ∧ a.get? (i - 1) = b.get? (j - 1)
      · have hi : 0 < i := heq.1
        have hj : 0 < j := heq.2.1
        have hrec := ih (i - 1) (j - 1) (by omega)
        rw [btRevF, if_pos h0, if_pos heq]
        have hi1 : i - 1 + 1 = i := by omega
        have hj1 : j - 1 + 1 = j := by omega
        constructor
        · simp only [aProj, List.filterMap_cons] at hrec ⊢
          rw [hrec.1, ← hi1, List.range_succ]
          simp
        · simp only [bProj, List.filterMap_cons] at hrec ⊢
          rw [hrec.2, ← hj1, List.range_succ]
          simp
      · by_cases hins : 0 < j ∧ (i = 0 ∨ dp a b i (j - 1) ≥ dp a b (i - 1) j)
        · have hrec := ih i (j - 1) (by omega)
          rw [btRevF, if_pos h0, if_neg heq, if_pos hins]
          have hj1 : j - 1 + 1 = j := by omega
          constructor
          · simp only [aProj, List.filterMap_cons] at hrec ⊢
            rw [hrec.1]
          · simp only [bProj, List.filterMap_cons] at hrec ⊢
            rw [hrec.2, ← hj1, List.range_succ]
            simp
        · have hi : 0 < i := by
            by_contra hc
            have hi0 : i = 0 := by omega
            have hj : 0 < j := by omega
            exact hins ⟨hj, Or.inl hi0⟩
          have hrec := ih (i - 1) j (by omega)
          rw [btRevF, if_pos h0, if_neg heq, if_neg hins]
          have hi1 : i - 1 + 1 = i := by omega
          constructor
          · simp only [aProj, List.filterMap_cons] at hrec ⊢
            rw [hrec.1, ← hi1, List.range_succ]
            simp
          · simp only [bProj, List.filterMap_cons] at hrec ⊢
            rw [hrec.2]

/-- C2: the edit script of `computeEditScript a b` covers every index of `a`
and of `b` exactly once and in strictly increasing order: its equal+delete
operations project onto `aIdx` as exactly `0, 1, ..., a.length - 1` and its
equal+insert operations project onto `bIdx` as exactly
`0, 1, ..., b.length - 1`, so the two projections reconstruct `a` and `b`. -/
theorem c2_edit_script_reconstructs (a b : List (List Char)) :
    aProj (computeEditScript a b) = List.range a.length ∧
    bProj (computeEditScript a b) = List.range b.length := by
  have h := btRevF_proj a b (a.length + b.length) a.length b.length le_rfl
  unfold computeEditScript
  constructor
  · show List.filterMap _ _ = _
    rw [List.filterMap_reverse]
    show (aProj _).reverse = _
    rw [h.1, List.reverse_reverse]
  · show List.filterMap _ _ = _
    rw [List.filterMap_reverse]
    show (bProj _).reverse = _
    rw [h.2, List.reverse_reverse]

/-! ## Claim C3 -/

theorem splitNl_ne_nil (s : List Char) : splitNl s ≠ [] := by
  induction s with
  | nil => simp [splitNl]
  | cons c cs ih =>
    rcases h : splitNl cs with _ | ⟨l, ls⟩
    · exact absurd h ih
    · simp only [splitNl, h]
      split <;> simp

theorem splitNl_no_nl (s : List Char) : ∀ l ∈ splitNl s, '\n' ∉ l := by
  induction s with
  | nil =>
    intro l hl
    simp only [splitNl, List.mem_singleton] at hl
    simp [hl]
  | cons c cs ih =>
    intro l hl
    rcases h : splitNl cs with _ | ⟨l0, ls⟩
    · exact absurd h (splitNl_ne_nil cs)
    · simp only [splitNl, h] at hl
      split at hl
      · next hc =>
        rcases List.mem_cons.mp hl with rfl | hl2
        · simp
        · exact ih l (h ▸ hl2)
      · next hc =>
        rcases List.mem_cons.mp hl with rfl | hl2
        · intro hmem
          rcases List.mem_cons.mp hmem with hh | hh
          · exact hc hh.symm
          · exact ih l0 (h ▸ List.mem_cons_self _ _) hh
        · exact ih l (h ▸ List.mem_cons_of_mem _ hl2)

theorem splitNl_no_nl_id {l : List Char} (h : '\n' ∉ l) : splitNl l = [l] := by
  induction l with
  | nil => simp [splitNl]
  | cons c cs ih =>
    have hc : c ≠ '\n' := fun hcc => h (hcc ▸ List.mem_cons_self _ _)
    have hcs : '\n' ∉ cs := fun hm => h (List.mem_cons_of_mem _ hm)
    simp only [splitNl, ih hcs]
    simp [hc]

theorem splitNl_append_nl {l : List Char} (h : '\n' ∉ l) (rest : List Char) :
    splitNl (l ++ '\n' :: rest) = l :: splitNl rest := by
  induction l with
  | nil =>
    rcases hr : splitNl rest with _ | ⟨l0, ls⟩
    · exact absurd hr (splitNl_ne_nil rest)
    · simp [splitNl, hr]
  | cons c cs ih =>
    have hc : c ≠ '\n' := fun hcc => h (hcc ▸ List.mem_cons_self _ _)
    have hcs : '\n' ∉ cs := fun hm => h (List.mem_cons_of_mem _ hm)
    simp only [List.cons_append, splitNl, List.append_eq]
    rw [ih hcs]
    simp [hc]

theorem splitNl_joinNl : ∀ ls : List (List Char), ls ≠ [] → (∀ l ∈ ls, '\n' ∉ l) →
    splitNl (joinNl ls) = ls := by
  intro ls
  induction ls with
  | nil => intro h; exact absurd rfl h
  | cons l ls ih =>
    intro _ hnl
    rcases ls with _ | ⟨l2, ls'⟩
    · exact splitNl_no_nl_id (hnl l (List.mem_cons_self _ _))
    · show splitNl (l ++ '\n' :: joinNl (l2 :: ls')) = _
      rw [splitNl_append_nl (hnl l (List.mem_cons_self _ _)),
        ih (by simp) (fun x hx => hnl x (List.mem_cons_of_mem _ hx))]

theorem matchHunkHeader_none {l : List Char} (h : l.head? ≠ some '@') :
    matchHunkHeader l = none := by
  cases l with
  | nil => decide
  | cons c cs =>
    have hc : c ≠ '@' := by
      intro hcc
      exact h (by simp [hcc])
    have hs : startsL ['@', '@', ' ', '-'] (c :: cs) = false := by
      simp only [startsL, Bool.and_eq_false_iff]
      left
      rw [beq_eq_false_iff_ne]
      exact fun hcc => hc hcc.symm
    simp [matchHunkHeader, hs]

theorem pdStep_zero {s : PDState} (hs : s.currentLine = 0) {line : List Char}
    (h : line.head? ≠ some '@') : pdStep s line = s := by
  simp [pdStep, matchHunkHeader_none h, hs]

theorem foldl_pdStep_zero {lines : List (List Char)}
    (h : ∀ l ∈ lines, l.head? ≠ some '@') {s : PDState} (hs : s.currentLine = 0) :
    lines.foldl pdStep s = s := by
  induction lines with
  | nil => rfl
  | cons l ls ih =>
    rw [List.foldl_cons, pdStep_zero hs (h l (List.mem_cons_self _ _))]
    exact ih (fun x hx => h x (List.mem_cons_of_mem _ hx))

theorem no_nl_getD (s : List Char) (i : Nat) : '\n' ∉ (splitNl s).getD i [] := by
  by_cases hi : i < (splitNl s).length
  · rw [List.getD_eq_getElem _ _ hi]
    exact splitNl_no_nl s _ (List.getElem_mem hi)
  · rw [List.getD_eq_default _ _ (by omega)]
    simp

theorem renderOp_safe (x y : List Char) (op : EditOp) :
    (renderOp (splitNl x) (splitNl y) op).head? ≠ some '@' ∧
      '\n' ∉ renderOp (splitNl x) (splitNl y) op := by
  cases op with
  | equal ai bi =>
    refine ⟨by simp [renderOp], ?_⟩
    simp only [renderOp, List.mem_cons, not_or]
    exact ⟨by decide, no_nl_getD y bi⟩
  | insert bi =>
    refine ⟨by simp [renderOp], ?_⟩
    simp only [renderOp, List.mem_cons, not_or]
    exact ⟨by decide, no_nl_getD y bi⟩
  | delete ai =>
    refine ⟨by simp [renderOp], ?_⟩
    simp only [renderOp, List.mem_cons, not_or]
    exact ⟨by decide, no_nl_getD x ai⟩

/-- C3 counterexample: on baseline `"a\nb\nc"`, current `"a\nx\nc"`, line 2,
`buildUnsavedDiff` yields the headerless hunk text `" a\n-b\n+x\n c"`;
re-parsing it reports NO changed lines, while
`computeChangedLines` restricted to the hunk's 1-based range (lines 1-3)
is `{2}` — so the round trip does not reproduce the changed-line set. -/
theorem c3_counterexample :
    buildUnsavedDiff "a\nb\nc".toList "a\nx\nc".toList 2 false = some " a\n-b\n+x\n c".toList ∧
    parseDiffLineNumbers " a\n-b\n+x\n c".toList = (∅, ∅) ∧
    ((computeChangedLines "a\nb\nc".toList "a\nx\nc".toList).1.filter
      (fun n => 1 ≤ n ∧ n ≤ 3)) = {2} ∧
    ({2} : Finset ℕ) ≠ (∅ : Finset ℕ) := by
  decide

/-- C3 amended: for every baseline, current content, line number and query
kind for which `buildUnsavedDiff` returns a diff text, re-parsing that text
with `parseDiffLineNumbers` yields the empty changed-line set and the empty
deletion-marker set: the generated hunk text carries no `@@` header line,
and the parser ignores every line before the first header. -/
theorem c3_amended (saved current : List Char) (bodyLine : Nat) (isDel : Bool)
    (t : List Char) (h : buildUnsavedDiff saved current bodyLine isDel = some t) :
    parseDiffLineNumbers t = (∅, ∅) := by
  simp only [buildUnsavedDiff] at h
  split at h
  · exact absurd h (by simp)
  · next hk hfind =>
    split at h
    · exact absurd h (by simp)
    · next hne =>
      have ht : t = joinNl (hk.ops.map (renderOp (splitNl saved) (splitNl current))) :=
        (Option.some.inj h).symm
      subst ht
      have hlines : ∀ l ∈ hk.ops.map (renderOp (splitNl saved) (splitNl current)),
          l.head? ≠ some '@' ∧ '\n' ∉ l := by
        intro l hl
        rcases List.mem_map.mp hl with ⟨op, _, rfl⟩
        exact renderOp_safe saved current op
      have hnil : hk.ops.map (renderOp (splitNl saved) (splitNl current)) ≠ [] := by
        simpa using hne
      show parseDiffLineNumbers _ = (∅, ∅)
      rw [parseDiffLineNumbers,
        splitNl_joinNl _ hnil (fun l hl => (hlines l hl).2),
        foldl_pdStep_zero (fun l hl => (hlines l hl).1) rfl]
      simp

/-- C3 witness: `c3_amended` applied to the counterexample inputs. -/
theorem c3_amended_witness :
    buildUnsavedDiff "a\nb\nc".toList "a\nx\nc".toList 2 false
      = some " a\n-b\n+x\n c".toList ∧
    parseDiffLineNumbers " a\n-b\n+x\n c".toList = (∅, ∅) :=
  ⟨by decide,
    c3_amended "a\nb\nc".toList "a\nx\nc".toList 2 false " a\n-b\n+x\n c".toList (by decide)⟩

/-! ## Claim C6 -/

theorem addCtx_spec : ∀ (ctx : List EditOp) (s : GState),
    (addCtx s ctx).hunks = s.hunks ∧
    (addCtx s ctx).cur.filter isChange = s.cur.filter isChange := by
  intro ctx
  induction ctx with
  | nil => intro s; exact ⟨rfl, rfl⟩
  | cons cop ctx ih =>
    intro s
    rcases cop with ⟨ai, bi⟩ | bi | ai
    · have hstep : addCtx s (.equal ai bi :: ctx) =
          addCtx { s with cur := s.cur ++ [.equal ai bi],
                          bStart := if s.bStart < 0 then (bi : Int) else s.bStart,
                          bEnd := (bi : Int) } ctx := rfl
      rw [hstep]
      refine ⟨(ih _).1, ((ih _).2).trans ?_⟩
      simp [List.filter_append, isChange]
    · have hstep : addCtx s (.insert bi :: ctx) = addCtx s ctx := rfl
      rw [hstep]
      exact ih s
    · have hstep : addCtx s (.delete ai :: ctx) = addCtx s ctx := rfl
      rw [hstep]
      exact ih s

theorem groupGo_filter (bLen : Nat) : ∀ (rest prev : List EditOp) (s : GState),
    ((groupGo bLen rest prev s).map Hunk.ops).flatten.filter isChange =
      ((s.hunks.map Hunk.ops).flatten.filter isChange) ++ (s.cur.filter isChange) ++
        (rest.filter isChange) := by
  intro rest
  induction rest with
  | nil =>
    intro prev s
    simp only [groupGo]
    split
    · next hcond =>
      simp [List.filter_append]
    · next hcond =>
      have hcur : s.cur.filter isChange = [] := by
        by_cases hemp : s.cur = []
        · simp [hemp]
        · have hisemp : s.cur.isEmpty = false := by
            rcases h : s.cur.isEmpty
            · rfl
            · exact absurd (List.isEmpty_iff.mp h) hemp
          have hany : ¬ s.cur.any isChange = true := by
            intro ha
            exact hcond (by rw [hisemp, ha]; rfl)
          rw [List.filter_eq_nil_iff]
          intro x hx hch
          exact hany (List.any_eq_true.mpr ⟨x, hx, hch⟩)
      simp [hcur]
  | cons op rest ih =>
    intro prev s
    show ((groupGo bLen rest (op :: prev) (groupStep bLen prev rest s op)).map
        Hunk.ops).flatten.filter isChange = _
    rw [ih]
    rcases op with ⟨ai, bi⟩ | bi | ai
    · simp only [groupStep]
      split
      · next hemp =>
        simp [List.filter_cons, isChange]
      · next hemp =>
        split
        · next hclose =>
          simp [List.filter_append, List.filter_cons, isChange]
        · next hclose =>
          simp [List.filter_append, List.filter_cons, isChange]
    · simp only [groupStep]
      split
      · next hemp =>
        rcases addCtx_spec ((prev.take 3).reverse) s with ⟨hh, hc⟩
        simp [hh, hc, List.filter_append, List.filter_cons, isChange]
      · next hemp =>
        simp [List.filter_append, List.filter_cons, isChange]
    · simp only [groupStep]
      split
      · next hemp =>
        rcases addCtx_spec ((prev.take 3).reverse) s with ⟨hh, hc⟩
        split
        · simp [hh, hc, List.filter_append, List.filter_cons, isChange]
        · simp [hh, hc, List.filter_append, List.filter_cons, isChange]
      · next hemp =>
        split
        · simp [List.filter_append, List.filter_cons, isChange]
        · simp [List.filter_append, List.filter_cons, isChange]

/-- C6 counterexample: on baseline `"x\n1\n2\n3\n4\ny"` and current
`"X\n1\n2\n3\n4\nY"` the grouper emits hunks covering `[0, 3]` and `[2, 5]`
of `b`: the ranges overlap at positions 2 and 3, and the context operations
`equal 2 2` and `equal 3 3` belong to BOTH hunks (the first hunk's trailing
context is reused as the second hunk's leading context). -/
theorem c6_counterexample :
    ((buildHunks (splitNl "x\n1\n2\n3\n4\ny".toList) (splitNl "X\n1\n2\n3\n4\nY".toList)).map
      (fun h => (h.bStart, h.bEnd))) = [(0, 3), (2, 5)] ∧
    EditOp.equal 2 2 ∈
      (((buildHunks (splitNl "x\n1\n2\n3\n4\ny".toList)
        (splitNl "X\n1\n2\n3\n4\nY".toList)).getD 0 default).ops) ∧
    EditOp.equal 2 2 ∈
      (((buildHunks (splitNl "x\n1\n2\n3\n4\ny".toList)
        (splitNl "X\n1\n2\n3\n4\nY".toList)).getD 1 default).ops) := by
  decide

/-- C6 amended: hunks are emitted in scan order and partition the CHANGE
operations: concatenating the hunks' operation lists and keeping the
non-equal ops yields exactly the non-equal subsequence of the edit script
(so no insert/delete belongs to two hunks); equal context operations,
however, may be shared between adjacent hunks, whose `[bStart, bEnd]`
ranges may overlap — one hunk's trailing context can reappear as the next
hunk's leading context. -/
theorem c6_amended (a b : List (List Char)) :
    (((buildHunks a b).map Hunk.ops).flatten).filter isChange =
      (computeEditScript a b).filter isChange := by
  unfold buildHunks
  rw [groupGo_filter]
  rfl

/-! ## Claim C7: substring machinery -/

theorem startsL_refl (l : List Char) : startsL l l = true := by
  induction l with
  | nil => rfl
  | cons c cs ih => simp [startsL, ih]

theorem startsL_append_r {p x : List Char} (h : startsL p x = true) (y : List Char) :
    startsL p (x ++ y) = true := by
  induction p generalizing x with
  | nil => rfl
  | cons q ps ih =>
    cases x with
    | nil => simp [startsL] at h
    | cons c cs =>
      simp only [startsL, Bool.and_eq_true] at h ⊢
      exact ⟨h.1, ih h.2⟩

theorem startsL_split {p x y : List Char} (h : startsL p (x ++ y) = true) :
    startsL p x = true ∨ ∃ p₂, p = x ++ p₂ ∧ startsL p₂ y = true := by
  induction x generalizing p with
  | nil => exact Or.inr ⟨p, by simp, h⟩
  | cons c cs ih =>
    cases p with
    | nil => exact Or.inl rfl
    | cons q ps =>
      rw [List.cons_append] at h
      simp only [startsL, Bool.and_eq_true] at h
      rcases ih h.2 with hl | ⟨p₂, hp, hs⟩
      · exact Or.inl (by simp [startsL, h.1, hl])
      · refine Or.inr ⟨p₂, ?_, hs⟩
        have hq : q = c := by simpa using h.1
        rw [hp, hq, List.cons_append]

theorem startsL_all_mem {p l : List Char} (h : startsL p l = true) : ∀ c ∈ p, c ∈ l := by
  induction p generalizing l with
  | nil => simp
  | cons q ps ih =>
    cases l with
    | nil => simp [startsL] at h
    | cons x xs =>
      simp only [startsL, Bool.and_eq_true] at h
      intro c hc
      rcases List.mem_cons.mp hc with rfl | hc2
      · have : c = x := by simpa using h.1
        simp [this]
      · exact List.mem_cons_of_mem _ (ih h.2 c hc2)

theorem endsL_refl (l : List Char) : endsL l l = true := startsL_refl l.reverse

theorem endsL_cons {p l : List Char} (h : endsL p l = true) (c : Char) :
    endsL p (c :: l) = true := by
  unfold endsL at h ⊢
  rw [List.reverse_cons]
  exact startsL_append_r h [c]

theorem endsL_all_mem {p l : List Char} (h : endsL p l = true) : ∀ c ∈ p, c ∈ l := by
  intro c hc
  have := startsL_all_mem h c (List.mem_reverse.mpr hc)
  exact List.mem_reverse.mp this

theorem hasSub_cons_of {p cs : List Char} (h : hasSub p cs = true) (c : Char) :
    hasSub p (c :: cs) = true := by
  simp only [hasSub, Bool.or_eq_true]
  exact Or.inr h

theorem hasSub_of_startsL {p l : List Char} (h : startsL p l = true) : hasSub p l = true := by
  cases l with
  | nil =>
    cases p with
    | nil => rfl
    | cons q ps => simp [startsL] at h
  | cons c cs =>
    simp only [hasSub, Bool.or_eq_true]
    exact Or.inl h

theorem hasSub_append_cases {p x y : List Char} (h : hasSub p (x ++ y) = true) :
    hasSub p x = true ∨ hasSub p y = true ∨
      ∃ p₁ p₂, p₁ ++ p₂ = p ∧ p₁ ≠ [] ∧ p₂ ≠ [] ∧ endsL p₁ x = true ∧ startsL p₂ y = true := by
  induction x generalizing p with
  | nil => exact Or.inr (Or.inl h)
  | cons c cs ih =>
    rw [List.cons_append] at h
    simp only [hasSub, Bool.or_eq_true] at h
    rcases h with hst | hsub
    · rcases @startsL_split p (c :: cs) y (by rw [List.cons_append]; exact hst) with hl | ⟨p₂, hp, hs⟩
      · exact Or.inl (hasSub_of_startsL hl)
      · by_cases hp2 : p₂ = []
        · subst hp2
          rw [List.append_nil] at hp
          subst hp
          exact Or.inl (hasSub_of_startsL (startsL_refl _))
        · exact Or.inr (Or.inr ⟨c :: cs, p₂, hp.symm, by simp, hp2, endsL_refl _, hs⟩)
    · rcases ih hsub with h1 | h2 | ⟨p₁, p₂, hsplit, hne1, hne2, he, hs⟩
      · exact Or.inl (hasSub_cons_of h1 c)
      · exact Or.inr (Or.inl h2)
      · exact Or.inr (Or.inr ⟨p₁, p₂, hsplit, hne1, hne2, endsL_cons he c, hs⟩)

theorem endsL_append_cases {p x y : List Char} (h : endsL p (x ++ y) = true) :
    endsL p y = true ∨ ∃ p₁, p₁ ++ y = p ∧ endsL p₁ x = true := by
  unfold endsL at h
  rw [List.reverse_append] at h
  rcases startsL_split h with hl | ⟨p₂, hp, hs⟩
  · exact Or.inl hl
  · refine Or.inr ⟨p₂.reverse, ?_, ?_⟩
    · have := congrArg List.reverse hp
      simp only [List.reverse_reverse, List.reverse_append] at this
      rw [this]
    · unfold endsL
      rw [List.reverse_reverse]
      exact hs

theorem startsL_trans {q p l : List Char} (h1 : startsL q p = true) (h2 : startsL p l = true) :
    startsL q l = true := by
  induction q generalizing p l with
  | nil => rfl
  | cons a qs ih =>
    cases p with
    | nil => simp [startsL] at h1
    | cons b ps =>
      cases l with
      | nil => simp [startsL] at h2
      | cons c cs =>
        simp only [startsL, Bool.and_eq_true] at h1 h2 ⊢
        have hab : a = b := by simpa using h1.1
        have hbc : b = c := by simpa using h2.1
        exact ⟨by simp [hab, hbc], ih h1.2 h2.2⟩

theorem hasSub_mono {q p l : List Char} (hq : startsL q p = true) (h : hasSub p l = true) :
    hasSub q l = true := by
  induction l with
  | nil =>
    simp only [hasSub, List.isEmpty_iff] at h ⊢
    subst h
    cases q with
    | nil => rfl
    | cons a qs => simp [startsL] at hq
  | cons c cs ih =>
    simp only [hasSub, Bool.or_eq_true] at h ⊢
    rcases h with hst | hsub
    · exact Or.inl (startsL_trans hq hst)
    · exact Or.inr (ih hsub)

theorem hasSub_head_mem {c : Char} {p l : List Char} (h : hasSub (c :: p) l = true) :
    c ∈ l := by
  induction l with
  | nil => simp [hasSub] at h
  | cons x xs ih =>
    simp only [hasSub, Bool.or_eq_true] at h
    rcases h with hst | hsub
    · exact startsL_all_mem hst c (List.mem_cons_self _ _)
    · exact List.mem_cons_of_mem _ (ih hsub)

theorem safe_of_not_mem {l : List Char} (h : '<' ∉ l) : Safe l := by
  refine ⟨?_, ?_, ?_⟩
  · rcases hs : hasSub scPat l
    · rfl
    · exact absurd (hasSub_head_mem hs) h
  · rcases hs : endsL ['<'] l
    · rfl
    · exact absurd (endsL_all_mem hs '<' (List.mem_singleton.mpr rfl)) h
  · rcases hs : endsL ['<', 's'] l
    · rfl
    · exact absurd (endsL_all_mem hs '<' (List.mem_cons_self _ _)) h

theorem safe_append {x y : List Char} (hx : Safe x) (hy : Safe y) : Safe (x ++ y) := by
  refine ⟨?_, ?_, ?_⟩
  · rcases hs : hasSub scPat (x ++ y)
    · rfl
    · exfalso
      rcases hasSub_append_cases hs with h1 | h2 | ⟨p₁, p₂, hsplit, hne1, hne2, he, _⟩
      · rw [hx.1] at h1; exact Bool.false_ne_true h1
      · rw [hy.1] at h2; exact Bool.false_ne_true h2
      · rcases p₁ with _ | ⟨a1, _ | ⟨a2, _ | ⟨a3, p₁'⟩⟩⟩
        · exact hne1 rfl
        · simp only [scPat, List.cons_append, List.nil_append, List.cons.injEq] at hsplit
          obtain ⟨rfl, hrest⟩ := hsplit
          rw [hx.2.1] at he; exact Bool.false_ne_true he
        · simp only [scPat, List.cons_append, List.nil_append, List.cons.injEq] at hsplit
          obtain ⟨rfl, rfl, hrest⟩ := hsplit
          rw [hx.2.2] at he; exact Bool.false_ne_true he
        · simp only [scPat, List.cons_append, List.cons.injEq] at hsplit
          obtain ⟨rfl, rfl, rfl, hrest⟩ := hsplit
          exact hne2 ((List.append_eq_nil.mp hrest).2)
  · rcases hs : endsL ['<'] (x ++ y)
    · rfl
    · exfalso
      rcases endsL_append_cases hs with h1 | ⟨p₁, hp, he⟩
      · rw [hy.2.1] at h1; exact Bool.false_ne_true h1
      · rcases p₁ with _ | ⟨a1, p₁'⟩
        · rw [List.nil_append] at hp
          subst hp
          have : endsL ['<'] ['<'] = true := by decide
          rw [hy.2.1] at this; exact Bool.false_ne_true this
        · simp only [List.cons_append, List.cons.injEq] at hp
          obtain ⟨rfl, hrest⟩ := hp
          obtain ⟨rfl, rfl⟩ := List.append_eq_nil.mp hrest
          rw [hx.2.1] at he; exact Bool.false_ne_true he
  · rcases hs : endsL ['<', 's'] (x ++ y)
    · rfl
    · exfalso
      rcases endsL_append_cases hs with h1 | ⟨p₁, hp, he⟩
      · rw [hy.2.2] at h1; exact Bool.false_ne_true h1
      · rcases p₁ with _ | ⟨a1, _ | ⟨a2, p₁'⟩⟩
        · rw [List.nil_append] at hp
          subst hp
          have : endsL ['<', 's'] ['<', 's'] = true := by decide
          rw [hy.2.2] at this; exact Bool.false_ne_true this
        · simp only [List.cons_append, List.nil_append, List.cons.injEq] at hp
          obtain ⟨rfl, hrest⟩ := hp
          subst hrest
          rw [hx.2.1] at he; exact Bool.false_ne_true he
        · simp only [List.cons_append, List.cons.injEq] at hp
          obtain ⟨rfl, rfl, hrest⟩ := hp
          obtain ⟨rfl, rfl⟩ := List.append_eq_nil.mp hrest
          rw [hx.2.2] at he; exact Bool.false_ne_true he

theorem mem_replaceChar {d c : Char} {rep l : List Char} (h : d ∈ replaceChar c rep l) :
    d ∈ rep ∨ d ∈ l := by
  induction l with
  | nil => simp [replaceChar] at h
  | cons x xs ih =>
    simp only [replaceChar] at h
    rcases List.mem_append.mp h with h1 | h2
    · split at h1
      · exact Or.inl h1
      · rcases List.mem_singleton.mp h1 with rfl
        exact Or.inr (List.mem_cons_self _ _)
    · rcases ih h2 with hr | hl
      · exact Or.inl hr
      · exact Or.inr (List.mem_cons_of_mem _ hl)

theorem not_mem_replaceChar_self {c : Char} {rep l : List Char} (h : c ∉ rep) :
    c ∉ replaceChar c rep l := by
  induction l with
  | nil => simp [replaceChar]
  | cons x xs ih =>
    simp only [replaceChar]
    intro hmem
    rcases List.mem_append.mp hmem with h1 | h2
    · split at h1
      · exact h h1
      · next hx => exact hx (List.mem_singleton.mp h1).symm
    · exact ih h2

theorem escapeHtml_lt_not_mem (s : List Char) : '<' ∉ escapeHtml s := by
  unfold escapeHtml
  intro hmem
  rcases mem_replaceChar hmem with h1 | h2
  · revert h1; decide
  · exact not_mem_replaceChar_self (by decide) h2

theorem safe_escape (s : List Char) : Safe (escapeHtml s) :=
  safe_of_not_mem (escapeHtml_lt_not_mem s)

theorem safe_wrap {cls : List Char} (hc : '<' ∉ cls) (text : List Char) :
    Safe (wrap cls text) := by
  unfold wrap
  refine safe_append (safe_append (safe_append (safe_append ?_ ?_) ?_) ?_) ?_
  · exact ⟨by decide, by decide, by decide⟩
  · exact safe_of_not_mem hc
  · exact safe_of_not_mem (by decide)
  · exact safe_escape text
  · exact ⟨by decide, by decide, by decide⟩

theorem foldBest_cls (t : List Char) (P : List Char → Prop) (rs : List (TryFn × List Char))
    (hrs : ∀ r ∈ rs, P r.2)
    (acc : Option (Nat × Nat × List Char))
    (hacc : ∀ i len cls, acc = some (i, len, cls) → P cls)
    {i len : Nat} {cls : List Char}
    (h : rs.foldl (bestStep t) acc = some (i, len, cls)) : P cls := by
  induction rs generalizing acc with
  | nil => exact hacc i len cls h
  | cons r rs ih =>
    refine ih (fun r' hr' => hrs r' (List.mem_cons_of_mem _ hr')) (bestStep t acc r) ?_ h
    intro i' len' cls' hstep
    simp only [bestStep] at hstep
    split at hstep
    · exact hacc _ _ _ hstep
    · split at hstep
      · simp only [Option.some.injEq, Prod.mk.injEq] at hstep
        exact hstep.2.2 ▸ hrs r (List.mem_cons_self _ _)
      · split at hstep
        · simp only [Option.some.injEq, Prod.mk.injEq] at hstep
          exact hstep.2.2 ▸ hrs r (List.mem_cons_self _ _)
        · exact hacc _ _ _ hstep

theorem findBest_cls {t : List Char} {i len : Nat} {cls : List Char}
    (h : findBest t = some (i, len, cls)) : '<' ∉ cls := by
  refine foldBest_cls t (fun c => '<' ∉ c) INLINE_RULES ?_ none (by simp) h
  intro r hr
  simp only [INLINE_RULES, List.mem_cons, List.not_mem_nil, or_false] at hr
  rcases hr with rfl | rfl | rfl | rfl | rfl | rfl <;> decide

theorem safe_nil : Safe [] := by
  exact ⟨by decide, by decide, by decide⟩

theorem safe_hlF : ∀ (fuel : Nat) (text : List Char), Safe (hlF fuel text) := by
  intro fuel
  induction fuel with
  | zero =>
    intro text
    exact safe_nil
  | succ fuel ih =>
    intro text
    rw [hlF]
    split
    · exact safe_nil
    · rcases hb : findBest text with _ | ⟨i, len, cls⟩
      · exact safe_escape text
      · exact safe_append (safe_append (safe_escape _) (safe_wrap (findBest_cls hb) _)) (ih _)

theorem safe_highlightInline (text : List Char) : Safe (highlightInline text) :=
  safe_hlF text.length text

theorem safe_highlightMarkdownLine (line : List Char) : Safe (highlightMarkdownLine line) := by
  simp only [highlightMarkdownLine]
  split
  · refine safe_append (@safe_wrap "md-heading-marker".toList (by decide) _)
      (safe_append (safe_append ?_ (safe_highlightInline _)) ?_)
    · exact ⟨by decide, by decide, by decide⟩
    · exact ⟨by decide, by decide, by decide⟩
  · split
    · exact @safe_wrap "md-hr".toList (by decide) _
    · split
      · exact @safe_wrap "md-blockquote".toList (by decide) _
      · split
        · exact safe_append (@safe_wrap "md-list-marker".toList (by decide) _)
            (safe_highlightInline _)
        · exact safe_highlightInline _

theorem safe_no_script {l : List Char} (h : Safe l) : hasSub scriptPat l = false := by
  rcases hs : hasSub scriptPat l
  · rfl
  · exfalso
    have : hasSub scPat l = true := hasSub_mono (by decide) hs
    rw [h.1] at this
    exact Bool.false_ne_true this

/-- C7: for any input line containing the literal `<script>`, neither
`highlightMarkdownLine` nor `highlightInline` produces markup containing an
unescaped `<script>` substring — all input text passes through `escapeHtml`
before the styling templates are added. -/
theorem c7_no_script_injection (line : List Char)
    (h : hasSub scriptPat line = true) :
    hasSub scriptPat (highlightMarkdownLine line) = false ∧
    hasSub scriptPat (highlightInline line) = false :=
  ⟨safe_no_script (safe_highlightMarkdownLine line),
   safe_no_script (safe_highlightInline line)⟩

/-- C7 witness: `c7_no_script_injection` applied to a concrete line carrying
a literal `<script>` tag. -/
theorem c7_witness :
    hasSub scriptPat "a <script>alert(1)</script> b".toList = true ∧
    hasSub scriptPat (highlightMarkdownLine "a <script>alert(1)</script> b".toList) = false ∧
    hasSub scriptPat (highlightInline "a <script>alert(1)</script> b".toList) = false :=
  ⟨by decide,
   (c7_no_script_injection "a <script>alert(1)</script> b".toList (by decide)).1,
   (c7_no_script_injection "a <script>alert(1)</script> b".toList (by decide)).2⟩

/-! ## Claim C9 -/

/-- C9 counterexample: a line of four backticks "consists of three or more
backticks alone", yet with a fence open `highlightMarkdown`'s line step does
NOT exit the fence (the closing regex `^```\s*$` rejects a fourth
backtick), so `inCode` stays true. -/
theorem c9_counterexample :
    ticksAlone [tickChar, tickChar, tickChar, tickChar] = true ∧
    (hmStep hcFallback false ⟨false, false, true, [], []⟩
      [tickChar, tickChar, tickChar, tickChar]).1.inCode = true := by
  decide

/-- C9 amended: past the front matter, a code fence is entered on any line
starting with three or more backticks (the language tag being the trimmed
remainder after the first three), and, once a fence is open, it is exited
exactly on lines whose first three characters are backticks followed ONLY
by whitespace — a line of four or more backticks alone does not close the
fence. -/
theorem c9_amended :
    (∀ (hc : List Char → List Char → List Char) (s : HMState) (line : List Char),
      s.inFM = false → s.inCode = false →
      startsL [tickChar, tickChar, tickChar] line = true →
        (hmStep hc false s line).1 =
          { s with inCode := true, codeLang := jsTrim (line.drop 3), codeLines := [] }) ∧
    (∀ (hc : List Char → List Char → List Char) (s : HMState) (line : List Char),
      s.inFM = false → s.inCode = true →
        ((hmStep hc false s line).1.inCode = false ↔ fenceCloseTest line = true)) := by
  constructor
  · intro hc s line hfm hcode hticks
    simp [hmStep, hfm, hcode, fenceOpenTest, hticks]
  · intro hc s line hfm hcode
    simp only [hmStep, hfm, hcode]
    rcases hcl : fenceCloseTest line
    · simp [hcl]
    · simp [hcl]

/-- C9 witness: `c9_amended` applied concretely — the fence opens on
a line of three backticks plus a language tag, and closes on a bare
three-backtick line. -/
theorem c9_amended_witness :
    ((hmStep hcFallback false ⟨false, false, false, [], []⟩
        (tickChar :: tickChar :: tickChar :: ['j', 's'])).1 =
      ⟨false, false, true, ['j', 's'], []⟩) ∧
    (hmStep hcFallback false ⟨false, false, true, ['j', 's'], []⟩
      [tickChar, tickChar, tickChar]).1.inCode = false := by
  constructor
  · have h := c9_amended.1 hcFallback ⟨false, false, false, [], []⟩
      (tickChar :: tickChar :: tickChar :: ['j', 's']) rfl rfl (by decide)
    rw [h]
    decide
  · exact (c9_amended.2 hcFallback ⟨false, false, true, ['j', 's'], []⟩
      [tickChar, tickChar, tickChar] rfl rfl).mpr (by decide)

/-! ## Claim C10 -/

theorem hl_cover_lemma : ∀ (fuel : Nat) (t : List Char), t.length ≤ fuel →
    ((hlSegsF fuel t).map Prod.fst).flatten = t ∧
    hlF fuel t = ((hlSegsF fuel t).map renderSeg).flatten := by
  intro fuel
  induction fuel with
  | zero =>
    intro t h
    have ht : t = [] := List.length_eq_zero.mp (by omega)
    subst ht
    exact ⟨rfl, rfl⟩
  | succ fuel ih =>
    intro t h
    rw [hlSegsF, hlF]
    by_cases hemp : t.isEmpty
    · have ht : t = [] := List.isEmpty_iff.mp hemp
      subst ht
      simp
    · rw [if_neg hemp, if_neg hemp]
      rcases hb : findBest t with _ | ⟨i, len, cls⟩
      · constructor
        · simp
        · simp [renderSeg]
      · have hlen : 0 < len := findBest_pos hb
        have hne : t ≠ [] := fun ht => hemp (by simp [ht])
        have hpos : 0 < t.length := List.length_pos.mpr hne
        have hrec := ih (t.drop (i + len)) (by simp only [List.length_drop]; omega)
        constructor
        · simp only [List.map_cons, List.flatten_cons]
          rw [hrec.1]
          conv_rhs => rw [← List.take_append_drop i t]
          congr 1
          conv_rhs => rw [← List.take_append_drop len (t.drop i)]
          congr 1
          rw [List.drop_drop]
        · simp only [List.map_cons, List.flatten_cons, renderSeg]
          rw [hrec.2, List.append_assoc]

/-- C10: `highlightInline` terminates and its loop consumes the whole
input: the consumed segments concatenate back to the input text (so the
emitted tokens are non-overlapping and exhaustive), the produced markup is
exactly the concatenation of the rendered segments, and every best match
the loop acts on has length at least one. -/
theorem c10_inline_cover (t : List Char) :
    ((hlSegs t).map Prod.fst).flatten = t ∧
    highlightInline t = ((hlSegs t).map renderSeg).flatten ∧
    (∀ i len cls, findBest t = some (i, len, cls) → 1 ≤ len) := by
  refine ⟨(hl_cover_lemma t.length t le_rfl).1, (hl_cover_lemma t.length t le_rfl).2, ?_⟩
  intro i len cls h
  exact findBest_pos h

/-- C10 witness: `c10_inline_cover`'s match-length bound applied at the
concrete match found on `"a **b** c"`. -/
theorem c10_witness :
    findBest "a **b** c".toList = some (2, 5, "md-bold".toList) ∧ 1 ≤ 5 :=
  ⟨by decide,
   (c10_inline_cover "a **b** c".toList).2.2 2 5 "md-bold".toList (by decide)⟩

end Chronicle
